import Mathlib

set_option maxHeartbeats 4000000
set_option maxRecDepth 100000

/-!
Verification development for the rocket reorientation-search engine.

The move/orientation algebra and the running puzzle-state proxy are embedded
from `src/cube.rs`; the iterative-deepening search skeleton is embedded from
`src/main.rs`.  `main.rs` executes the search against an external `cubesim`
`FaceletCube` together with a pruning-table solver; that crate is not part of
this repository, so the search state and its acceptance/pruning bound are
modelled from the spec's puzzle-state-proxy description (see the doc comments
on the definitions involved).
-/

namespace Rocket

/-- Axis of a face turn, from cube.rs (`enum Axis { X = 0, Y = 1, Z = 2 }`). -/
inductive Axis
  | X
  | Y
  | Z
deriving DecidableEq, Fintype

/-- Numeric value of an axis (`Axis::u8`). -/
def Axis.u8 : Axis → Nat
  | .X => 0
  | .Y => 1
  | .Z => 2

/-- Decoder of axis numbers (`impl From<u8> for Axis`).  Rust panics on values
above 2; such values are unreachable for well-formed encodings, and we map
them to an arbitrary axis. -/
def Axis.fromNat : Nat → Axis
  | 0 => .X
  | 1 => .Y
  | 2 => .Z
  | _ => .X

/-- Turn amount on one face, from cube.rs (`enum TurnMultiple`), a cyclic
group of order 4. -/
inductive TurnMultiple
  | none
  | cw
  | half
  | ccw
deriving DecidableEq, Fintype

/-- Numeric value of a turn multiple. -/
def TurnMultiple.u8 : TurnMultiple → Nat
  | .none => 0
  | .cw => 1
  | .half => 2
  | .ccw => 3

/-- Decoder of turn-multiple numbers (`impl From<u8> for TurnMultiple`).
Rust panics on values above 3; callers always mask to two bits, so the junk
branch is unreachable. -/
def TurnMultiple.fromNat : Nat → TurnMultiple
  | 0 => .none
  | 1 => .cw
  | 2 => .half
  | 3 => .ccw
  | _ => .none

/-- A face turn, from cube.rs.  The Rust struct packs the three fields into
one byte `AA0PP0NN` (`Move { bits: u8 }`); the byte is private and only ever
holds well-formed encodings, so we carry the three decoded fields and expose
the byte through `Move.bits`. -/
structure Move where
  axis : Axis
  positive : TurnMultiple
  negative : TurnMultiple
deriving DecidableEq, Fintype

/-- `Move::new`. -/
def Move.new (a : Axis) (p n : TurnMultiple) : Move := ⟨a, p, n⟩

/-- The packed byte `AA0PP0NN` of a move (`Move.bits`). -/
def Move.bits (m : Move) : Nat :=
  (m.axis.u8 <<< 6) ||| (m.positive.u8 <<< 3) ||| m.negative.u8

/-- Decode a packed byte into a move (field extraction as in `Move::axis`,
`Move::positive`, `Move::negative`). -/
def Move.ofBits (b : Nat) : Move :=
  ⟨Axis.fromNat (b >>> 6), TurnMultiple.fromNat ((b >>> 3) &&& 3), TurnMultiple.fromNat (b &&& 3)⟩

/-- `Move::is_ident`: both turn fields are zero. -/
def Move.is_ident (m : Move) : Bool := m.bits &&& 0b00011011 == 0

/-- `Move::is_double_move`: both turn fields are simultaneously nonzero. -/
def Move.is_double_move (m : Move) : Bool :=
  (m.bits &&& 3 != 0) && ((m.bits >>> 3) &&& 3 != 0)

/-- The byte-wide packed addition of `impl Add for Move`, after the axis
assertion has passed: `(self.bits + (rhs.bits & 0b00011011)) & 0b11011011`. -/
def Move.addBits (m1 m2 : Move) : Move :=
  Move.ofBits ((m1.bits + (m2.bits &&& 0b00011011)) &&& 0b11011011)

/-- `impl Add for Move`.  Rust asserts that the two axes agree and panics
otherwise; the panic is modelled as `none`. -/
def Move.add (m1 m2 : Move) : Option Move :=
  if m1.axis = m2.axis then some (m1.addBits m2) else none

/-- Inverse of a turn multiple: the element summing to 0 mod 4. -/
def TurnMultiple.inv : TurnMultiple → TurnMultiple
  | .none => .none
  | .cw => .ccw
  | .half => .half
  | .ccw => .cw

/-- The algebraic inverse of a move as used by claim C7: the same-axis move
whose composition with `m` is the identity. -/
def Move.inv (m : Move) : Move := Move.new m.axis m.positive.inv m.negative.inv

/-- A whole-object orientation, from cube.rs.  The Rust struct packs the five
fields into one byte `0xyzXXYY` (`Orientation { bits: u8 }`, sign bits for
X/Y/Z and the two-bit images of X and Y); as for `Move` we carry the decoded
fields and expose the byte through `Orientation.bits`. -/
structure Orientation where
  xflip : Bool
  yflip : Bool
  zflip : Bool
  xpos : Axis
  ypos : Axis
deriving DecidableEq, Fintype

/-- The packed byte `0xyzXXYY` of an orientation. -/
def Orientation.bits (o : Orientation) : Nat :=
  ((cond o.xflip 1 0) <<< 6) ||| ((cond o.yflip 1 0) <<< 5) |||
    ((cond o.zflip 1 0) <<< 4) ||| (o.xpos.u8 <<< 2) ||| o.ypos.u8

/-- Decode a packed byte into an orientation. -/
def Orientation.ofBits (b : Nat) : Orientation :=
  ⟨(b >>> 6) &&& 1 == 1, (b >>> 5) &&& 1 == 1, (b >>> 4) &&& 1 == 1,
    Axis.fromNat ((b >>> 2) &&& 3), Axis.fromNat (b &&& 3)⟩

/-- `Orientation::z_bits`: `!(self.bits ^ (self.bits >> 2)) & 3`, the image
of Z computed as the axis code used by neither X's nor Y's image.  Bitwise
complement within the low two bits is xor with 3. -/
def Orientation.z_bits (o : Orientation) : Nat :=
  ((o.bits ^^^ (o.bits >>> 2)) &&& 3) ^^^ 3

/-- `Orientation::transform_axis`: the image of an axis together with whether
its sign is flipped (`self.bits & (1 << (6 - a as u8)) != 0`). -/
def Orientation.transform_axis (o : Orientation) (a : Axis) : Axis × Bool :=
  (Axis.fromNat (match a with
    | .X => (o.bits >>> 2) &&& 3
    | .Y => o.bits &&& 3
    | .Z => o.z_bits),
   o.bits &&& (1 <<< (6 - a.u8)) != 0)

/-- `Orientation::transform_move`: remap the axis and swap the two turn
fields when the sign of that axis flips. -/
def Orientation.transform_move (o : Orientation) (m : Move) : Move :=
  match o.transform_axis m.axis with
  | (axis, sign_flip) =>
    if sign_flip then Move.new axis m.negative m.positive
    else Move.new axis m.positive m.negative

/-- `Orientation::transform_signed_axis`. -/
def Orientation.transform_signed_axis (o : Orientation) (a : Axis × Bool) : Axis × Bool :=
  match o.transform_axis a.1 with
  | (a2, s2) => (a2, xor a.2 s2)

/-- `Orientation::transform_orientation`: compose two orientations (apply `p`
first, then `o`), rebuilding the packed fields exactly as the source does. -/
def Orientation.transform_orientation (o p : Orientation) : Orientation :=
  match o.transform_signed_axis (p.transform_axis .X),
      o.transform_signed_axis (p.transform_axis .Y),
      o.transform_signed_axis (p.transform_axis .Z) with
  | (x, xflip), (y, yflip), (_, zflip) => ⟨xflip, yflip, zflip, x, y⟩

/-- The identity orientation (`impl Default for Orientation`, bit pattern
`0b00000001`). -/
def Orientation.identity : Orientation := Orientation.ofBits 0b00000001

/-- The 24 named reorientations, from main.rs (`enum Reorient`). -/
inductive Reorient
  | none
  | R | L | U | D | F | B
  | R2 | U2 | F2
  | UF | UR | FR | DF | UL | BR
  | UFR | DBL | UFL | DBR | DFR | UBL | UBR | DFL
deriving DecidableEq, Fintype

/-- Enum ordinal of a reorientation (the Rust discriminant). -/
def Reorient.ord : Reorient → Nat
  | .none => 0
  | .R => 1 | .L => 2 | .U => 3 | .D => 4 | .F => 5 | .B => 6
  | .R2 => 7 | .U2 => 8 | .F2 => 9
  | .UF => 10 | .UR => 11 | .FR => 12 | .DF => 13 | .UL => 14 | .BR => 15
  | .UFR => 16 | .DBL => 17 | .UFL => 18 | .DBR => 19
  | .DFR => 20 | .UBL => 21 | .UBR => 22 | .DFL => 23

/-- `Reorient::ALL`, in catalog order. -/
def Reorient.ALL : List Reorient :=
  [.none, .R, .L, .U, .D, .F, .B, .R2, .U2, .F2,
   .UF, .UR, .FR, .DF, .UL, .BR,
   .UFR, .DBL, .UFL, .DBR, .DFR, .UBL, .UBR, .DFL]

/-- `impl From<Reorient> for Orientation`: the fixed table of 24 packed bit
patterns from cube.rs. -/
def Reorient.orientation (r : Reorient) : Orientation :=
  Orientation.ofBits (match r with
    | .none => 0b00000001
    | .R => 0b00100010
    | .L => 0b00010010
    | .U => 0b00011001
    | .D => 0b01001001
    | .F => 0b01001000
    | .B => 0b00101000
    | .R2 => 0b00110001
    | .U2 => 0b01010001
    | .F2 => 0b01100001
    | .UF => 0b01000010
    | .UR => 0b00010100
    | .FR => 0b00101001
    | .DF => 0b01110010
    | .UL => 0b01110100
    | .BR => 0b01111001
    | .UFR => 0b00001000
    | .DBL => 0b00000110
    | .UFL => 0b01010110
    | .DBR => 0b01011000
    | .DFR => 0b01100110
    | .UBL => 0b01101000
    | .UBR => 0b00110110
    | .DFL => 0b00111000)

/-- `Reorient::is_none`. -/
def Reorient.is_none (r : Reorient) : Bool := r == Reorient.none

/-- `Reorient::cost`.  The Rust function reads the process-wide
`CHEAP_MOVES` bitmask; following the spec's design note we pass that mask
explicitly. -/
def Reorient.cost (cheap : Nat) (r : Reorient) : Nat :=
  if (cheap >>> r.ord) &&& 1 ≠ 0 ∧ r ≠ Reorient.none then 1
  else
    match r with
    | .none => 0
    | .R | .L | .U | .D | .F | .B => 1
    | .R2 | .U2 | .F2 => 2
    | .UF | .UR | .FR | .DF | .UL | .BR => 3
    | .UFR | .DBL | .UFL | .DBR | .DFR | .UBL | .UBR | .DFL => 2

/-- The per-class catalog cost exactly as the spec sentence behind claim C9
lists it: 0 for None, 1 for the 6 single-axis quarter rotations, 2 for the 3
double face rotations, 3 for the 6 edge-axis rotations, 2 for the 8
corner-axis rotations.  Kept separate from `Reorient.cost` so the source
table can be compared against the spec's wording. -/
def costCatalogSpec : Reorient → Nat
  | .none => 0
  | .R => 1 | .L => 1 | .U => 1 | .D => 1 | .F => 1 | .B => 1
  | .R2 => 2 | .U2 => 2 | .F2 => 2
  | .UF => 3 | .UR => 3 | .FR => 3 | .DF => 3 | .UL => 3 | .BR => 3
  | .UFR => 2 | .DBL => 2 | .UFL => 2 | .DBR => 2
  | .DFR => 2 | .UBL => 2 | .UBR => 2 | .DFL => 2

/-- The running puzzle-state proxy from cube.rs (`CubeState`).  The Rust
struct stores a fixed array `[Move; 31]` plus a length; we keep the live
entries as a list with the most recent move first (the array's logical order
reversed). -/
abbrev CubeState := List Move

/-- `CubeState::push`.  Writing into `self.moves[self.len]` panics when the
31-entry array is full; the panic is modelled as `none`. -/
def CubeState.push (s : CubeState) (m : Move) : Option CubeState :=
  if s.length < 31 then some (m :: s) else none

/-- `CubeState::pop` (saturating). -/
def CubeState.pop (s : CubeState) : CubeState := s.tail

/-- `CubeState::apply_move`: compose into the newest entry when the axes
agree (dropping it if the composition is the identity), push otherwise. -/
def CubeState.apply_move (s : CubeState) (m : Move) : Option CubeState :=
  match s with
  | old :: rest =>
    if old.axis = m.axis then
      let c := old.addBits m
      some (if c.is_ident then rest else c :: rest)
    else CubeState.push (old :: rest) m
  | [] => CubeState.push [] m

/-- `CubeState::is_solved`: the sequence is empty. -/
def CubeState.is_solved (s : CubeState) : Bool := s.isEmpty

/-- `CubeState::is_one_from_solved`: exactly one entry that is not a double
move. -/
def CubeState.is_one_from_solved (s : CubeState) : Bool :=
  match s with
  | [m] => !m.is_double_move
  | _ => false

/-- `CubeState::lower_bound`: each entry costs 1 physical turn, or 2 when it
moves both faces. -/
def CubeState.lower_bound (s : CubeState) : Nat :=
  (s.map fun m => if m.is_double_move then 2 else 1).sum

/-- Modelled from the spec: main.rs threads a `cubesim::FaceletCube` (an
external crate, not in this repository) through the search, and that state
has no capacity bound.  §4.3 of the spec describes the puzzle-state proxy as
a pure value transform; this is `CubeState.apply_move` with the fixed-buffer
capacity check absent, used as that search state. -/
def CubeState.apply_move_total (s : CubeState) (m : Move) : CubeState :=
  match s with
  | old :: rest =>
    if old.axis = m.axis then
      let c := old.addBits m
      if c.is_ident then rest else c :: rest
    else m :: old :: rest
  | [] => [m]

/-- Modelled from the spec: the terminal fold of `dfs`
(`state.apply_moves(moves)` on the external cube state), folding every
remaining input move through the current orientation into the proxy state via
`orientation.transform_move`, as §4.4 describes. -/
def foldMoves (o : Orientation) (s : CubeState) (moves : List Move) : CubeState :=
  moves.foldl (fun st mv => st.apply_move_total (o.transform_move mv)) s

/-- `type Solution = Vec<Reorient>` from main.rs: the reorientations between
each move, built by pushing the choice of every level on the way back up the
recursion (so the stored order is reversed). -/
abbrev Solution := List Reorient

/-- `dfs` from main.rs.  The recursion skeleton (terminal condition, pruning
test, branching over `Reorient::ALL`, budget arithmetic and solution
building) is the source's; the external `FaceletCube` state together with
`NAIVE_SOLVER.lower_bound` is modelled from the spec as the puzzle-state
proxy threaded with the current orientation, acceptance and pruning using the
proxy's `lower_bound` (spec §4.4), and the per-branch reorientation composing
into the orientation (`compose(reorient.orientation(), orientation)`). -/
def dfs : CubeState → Orientation → List Move → Nat → List Solution
  | s, o, [], _ =>
    if (foldMoves o s []).lower_bound ≤ 1 then [List.replicate 0 Reorient.none] else []
  | s, o, [m], _ =>
    if (foldMoves o s [m]).lower_bound ≤ 1 then [List.replicate 0 Reorient.none] else []
  | s, o, m0 :: m1 :: rest, b =>
    if b = 0 then
      if (foldMoves o s (m0 :: m1 :: rest)).lower_bound ≤ 1 then
        [List.replicate ((m0 :: m1 :: rest).length - 1) Reorient.none]
      else []
    else if (m0 :: m1 :: rest).length + 1 < s.lower_bound then []
    else
      (Reorient.ALL.map fun r =>
        (dfs (s.apply_move_total (o.transform_move m0))
            (r.orientation.transform_orientation o) (m1 :: rest)
            (b - 1 + if r = Reorient.none then 1 else 0)).map
          fun sol => sol ++ [r]).flatten

/-- The iterative-deepening loop body of `iddfs`, over an explicit list of
budget levels (`for max_reorients in 0..min(moves.len(), max_depth + 1)`).
Returns the levels attempted (the "Searching solutions with k reorients"
progress lines), the successful level, and the solutions paired with their
total reorientation cost.  Solution strings are presentation (out of scope
per spec §1); we return the solution itself in place of its rendering. -/
def iddfsLoop (cheap : Nat) (moves : List Move) : List Nat → List Nat × (Nat × List (Nat × Solution))
  | [] => ([], (0, []))
  | k :: ks =>
    let ret := dfs [] Orientation.identity moves k
    if ret.isEmpty then
      let res := iddfsLoop cheap moves ks
      (k :: res.1, res.2)
    else
      ([k], (k, ret.map fun sol => ((sol.map (Reorient.cost cheap)).sum, sol)))

/-- `iddfs` from main.rs: early return for sequences of length at most 1,
otherwise iterative deepening over budgets `0..min(n, max_depth + 1)`. -/
def iddfs (cheap : Nat) (moves : List Move) (max_depth : Nat) :
    List Nat × (Nat × List (Nat × Solution)) :=
  if moves.length ≤ 1 then ([], (0, [(0, [])]))
  else iddfsLoop cheap moves (List.range (min moves.length (max_depth + 1)))

/-- One root-to-leaf run of the search semantics: thread the state and
orientation through the moves, consuming one chosen reorientation per gap
(the gap after each move except the last), in gap order.  `none` when the
assignment's length does not match the number of gaps. -/
def runPath : CubeState → Orientation → List Move → List Reorient → Option CubeState
  | s, _, [], [] => some s
  | s, o, [m], [] => some (s.apply_move_total (o.transform_move m))
  | s, o, m0 :: m1 :: rest, r :: rs =>
    runPath (s.apply_move_total (o.transform_move m0))
      (r.orientation.transform_orientation o) (m1 :: rest) rs
  | _, _, _, _ => none

/-- A gap assignment is accepted when threading it through the moves ends in
a state with lower bound at most 1 (solved or one turn from solved). -/
def acceptsPath (s : CubeState) (o : Orientation) (moves : List Move)
    (gaps : List Reorient) : Bool :=
  match runPath s o moves gaps with
  | some t => decide (t.lower_bound ≤ 1)
  | Option.none => false

/-- Number of non-identity reorientations in a solution or gap assignment. -/
def nonIdentCount (sol : List Reorient) : Nat :=
  (sol.filter fun r => r != Reorient.none).length

/-- Fold a list of moves into the proxy from the empty state through the
fallible `apply_move`; `none` as soon as one application panics. -/
def buildState (ms : List Move) : Option CubeState :=
  ms.foldlM CubeState.apply_move []

/-- The parsed face turns: `Move::from_str` always produces a move turning
exactly one of the two faces of its axis (possibly by a half or reverse
quarter turn), never both. -/
def parsedMove (m : Move) : Prop :=
  (m.positive = TurnMultiple.none) ≠ (m.negative = TurnMultiple.none)

instance : DecidablePred parsedMove := fun m => by unfold parsedMove; infer_instance

/-- Concrete moves used in witnesses and counterexamples. -/
def mR : Move := Move.new .X .cw .none

def mRp : Move := Move.new .X .ccw .none

def mU : Move := Move.new .Y .cw .none

def mUp : Move := Move.new .Y .ccw .none

def mF : Move := Move.new .Z .cw .none

/-- The all-fields-zero move on the X axis (the identity move). -/
def mI : Move := Move.new .X .none .none

/-- 31 axis-alternating moves: applying them from the empty state fills the
fixed 31-entry buffer of `CubeState`. -/
def ms31 : List Move := (List.replicate 15 [mR, mU]).flatten ++ [mR]

/-- The proxy state reached by `ms31` (newest first). -/
def s31 : CubeState := mR :: (List.replicate 15 [mU, mR]).flatten


/-- Well-formed orientation encodings: the images of X and Y are distinct
axes.  All 24 catalog patterns satisfy this and composition with catalog
entries preserves it; the degenerate encodings are unreachable. -/
def Orientation.wf (o : Orientation) : Prop := o.xpos ≠ o.ypos

instance (o : Orientation) : Decidable o.wf := by unfold Orientation.wf; infer_instance

/-- The transformed move turns only one face: its axis is `a` and its turn
content sits entirely in the positive field (when `f`) or in the negative
field (when not). -/
def landsSingle (o : Orientation) (m : Move) (a : Axis) (f : Bool) : Prop :=
  (o.transform_move m).axis = a ∧
    (f = true → (o.transform_move m).negative = TurnMultiple.none) ∧
    (f = false → (o.transform_move m).positive = TurnMultiple.none)

instance (o : Orientation) (m : Move) (a : Axis) (f : Bool) : Decidable (landsSingle o m a f) := by
  unfold landsSingle; infer_instance

/-- A move turning only one face of axis `a`: the `f` flag selects whether
the turn content is in the positive or the negative field. -/
def singleEntry (a : Axis) (f : Bool) (q : TurnMultiple) : Move :=
  match f with
  | true => Move.new a q TurnMultiple.none
  | false => Move.new a TurnMultiple.none q

/-- States arising in the accepting-path construction: empty, or one entry on
axis `a` turning only the `f` face. -/
def singleAxisState (a : Axis) (f : Bool) (s : CubeState) : Prop :=
  s = [] ∨ ∃ q, s = [singleEntry a f q]

/-- The invariant of stored proxy entries: none is the identity move and
adjacent entries lie on different axes (newest first). -/
def entriesInv (s : CubeState) : Prop :=
  (∀ m ∈ s, m.is_ident = false) ∧ s.Chain' fun m1 m2 => m1.axis ≠ m2.axis

/-! ## Algebra helper lemmas -/

theorem reorient_mem_ALL : ∀ r : Reorient, r ∈ Reorient.ALL := by decide

theorem addBits_char :
    ∀ (a : Axis) (p1 n1 p2 n2 : TurnMultiple),
      Move.addBits (Move.new a p1 n1) (Move.new a p2 n2) =
        Move.new a (TurnMultiple.fromNat ((p1.u8 + p2.u8) % 4))
          (TurnMultiple.fromNat ((n1.u8 + n2.u8) % 4)) := by decide

theorem addBits_axis : ∀ m1 m2 : Move, (m1.addBits m2).axis = m1.axis := by decide

theorem addBits_inv_ident : ∀ m : Move, (m.addBits m.inv).is_ident = true := by decide

theorem addBits_ident_eq_inv :
    ∀ old m : Move, old.axis = m.axis → (old.addBits m).is_ident = true → old = m.inv := by decide

theorem addBits_cancel : ∀ old m : Move, (old.addBits m).addBits m.inv = old := by decide

theorem inv_axis (m : Move) : m.inv.axis = m.axis := rfl

theorem is_double_addBits_ident :
    ∀ old m : Move, m.is_double_move = false → (old.addBits m).is_ident = true →
      old.is_double_move = false := by decide

theorem is_double_transform :
    ∀ (o : Orientation) (m : Move), (o.transform_move m).is_double_move = m.is_double_move := by
  decide

theorem transform_orientation_ident :
    ∀ o : Orientation, (Reorient.none.orientation).transform_orientation o = o := by decide

/-! ## C4: packed byte-wide move composition -/

/-- C4: for moves sharing an axis, `+` (the single byte-wide addition over
the packed bit fields) returns the move on that axis whose positive turn
field is the mod-4 sum of the positive fields and whose negative turn field
is the mod-4 sum of the negative fields. -/
theorem c4_move_add :
    ∀ (a : Axis) (p1 n1 p2 n2 : TurnMultiple),
      Move.add (Move.new a p1 n1) (Move.new a p2 n2) =
        some (Move.new a (TurnMultiple.fromNat ((p1.u8 + p2.u8) % 4))
          (TurnMultiple.fromNat ((n1.u8 + n2.u8) % 4))) := by decide

/-! ## C10: lower bound at most 1 is exactly solved-or-one-from-solved -/

theorem lower_bound_le_one_iff (s : CubeState) :
    s.lower_bound ≤ 1 ↔ (s.is_solved = true ∨ s.is_one_from_solved = true) := by
  match s with
  | [] => simp [CubeState.lower_bound, CubeState.is_solved, CubeState.is_one_from_solved]
  | [m] =>
    cases hm : m.is_double_move <;>
      simp [CubeState.lower_bound, CubeState.is_solved, CubeState.is_one_from_solved, hm]
  | a :: b :: t =>
    have h1 : (1:Nat) ≤ if a.is_double_move then 2 else 1 := by split <;> omega
    have h2 : (1:Nat) ≤ if b.is_double_move then 2 else 1 := by split <;> omega
    simp only [CubeState.lower_bound, CubeState.is_solved, CubeState.is_one_from_solved,
      List.map_cons, List.sum_cons, List.isEmpty_cons]
    constructor
    · intro h; omega
    · rintro (h | h) <;> simp_all

/-- C10: for every puzzle-state proxy, `lower_bound() <= 1` holds exactly
when `is_solved()` or `is_one_from_solved()` holds. -/
theorem c10_lower_bound_iff (s : CubeState) :
    s.lower_bound ≤ 1 ↔ (s.is_solved = true ∨ s.is_one_from_solved = true) :=
  lower_bound_le_one_iff s

/-! ## C9: reorientation costs -/

/-- C9: `Reorient::cost` returns the spec's catalog value (0 none, 1 for the
six face rotations, 2 for the three double face rotations, 3 for the six
edge-axis rotations, 2 for the eight corner-axis rotations), overridden to 1
whenever the cheap-set bit at the ordinal is set and the value is not None;
the result is always in {0,1,2,3}. -/
theorem c9_cost (cheap : Nat) (r : Reorient) :
    Reorient.cost cheap r =
      (if (cheap >>> r.ord) &&& 1 ≠ 0 ∧ r ≠ Reorient.none then 1 else costCatalogSpec r) ∧
    Reorient.cost cheap r ≤ 3 := by
  have h : Reorient.cost cheap r =
      if (cheap >>> r.ord) &&& 1 ≠ 0 ∧ r ≠ Reorient.none then 1 else costCatalogSpec r := by
    unfold Reorient.cost
    split
    · rfl
    · cases r <;> rfl
  refine ⟨h, ?_⟩
  rw [h]
  split
  · omega
  · cases r <;> decide

/-! ## C5: transforming a move through an orientation -/

theorem catalog_z_distinct :
    ∀ o ∈ Reorient.ALL.map Reorient.orientation,
      (Orientation.transform_axis o Axis.Z).1 ≠ (Orientation.transform_axis o Axis.X).1 ∧
      (Orientation.transform_axis o Axis.Z).1 ≠ (Orientation.transform_axis o Axis.Y).1 := by
  decide

/-- C5: for each of the 24 orientations of the catalog, `transform_move`
produces the move on the image of the argument's axis, with the two turn
fields swapped exactly when the orientation flips the sign of that axis, and
Z's image (computed by `z_bits`) is the axis used by neither X's image nor
Y's image. -/
theorem c5_transform_move (o : Orientation)
    (ho : o ∈ Reorient.ALL.map Reorient.orientation) (m : Move) :
    o.transform_move m =
      Move.new (o.transform_axis m.axis).1
        (if (o.transform_axis m.axis).2 then m.negative else m.positive)
        (if (o.transform_axis m.axis).2 then m.positive else m.negative) ∧
    (o.transform_axis Axis.Z).1 ≠ (o.transform_axis Axis.X).1 ∧
    (o.transform_axis Axis.Z).1 ≠ (o.transform_axis Axis.Y).1 := by
  refine ⟨?_, (catalog_z_distinct o ho).1, (catalog_z_distinct o ho).2⟩
  unfold Orientation.transform_move
  rcases h : o.transform_axis m.axis with ⟨ax, fl⟩
  cases fl <;> simp

theorem c5_witness :
    (Reorient.U.orientation).transform_move mR =
      Move.new ((Reorient.U.orientation).transform_axis mR.axis).1
        (if ((Reorient.U.orientation).transform_axis mR.axis).2 then mR.negative else mR.positive)
        (if ((Reorient.U.orientation).transform_axis mR.axis).2 then mR.positive else mR.negative) ∧
    ((Reorient.U.orientation).transform_axis Axis.Z).1 ≠
      ((Reorient.U.orientation).transform_axis Axis.X).1 ∧
    ((Reorient.U.orientation).transform_axis Axis.Z).1 ≠
      ((Reorient.U.orientation).transform_axis Axis.Y).1 :=
  c5_transform_move _ (by decide) mR

/-! ## C6: the catalog is NOT closed under composition (code bug)

Composing the catalog orientations of `R` and `F` yields the bit pattern
`0b1010100`, which is none of the 24 catalog patterns (it is an improper
signed permutation).  The rows of the table for `F` and `B` do not encode
the z rotations that their own display strings (`Oz`, `Oz'`) and
`equivalent_rkt_moves` (`[Z(Standard)]`, `[Z(Inverse)]`) describe; replacing
those two rows by the true z-rotation encodings restores closure. -/

theorem c6_failing_pair :
    Reorient.R.orientation.transform_orientation Reorient.F.orientation ∉
      Reorient.ALL.map Reorient.orientation := by decide

/-! ## C7 and C8: proxy reachability, invariants and cancellation -/

theorem entriesInv_nil : entriesInv [] := by constructor <;> simp

theorem entriesInv_apply (s : CubeState) (m : Move) (hm : m.is_ident = false)
    (hs : entriesInv s) (s' : CubeState) (h : s.apply_move m = some s') : entriesInv s' := by
  obtain ⟨hni, hch⟩ := hs
  match s with
  | [] =>
    simp only [CubeState.apply_move, CubeState.push, List.length_nil] at h
    rw [if_pos (by omega)] at h
    cases h
    exact ⟨by simpa using hm, by simp⟩
  | old :: rest =>
    simp only [CubeState.apply_move] at h
    by_cases hax : old.axis = m.axis
    · rw [if_pos hax] at h
      cases h
      split
      · rename_i hident
        refine ⟨fun x hx => hni x (List.mem_cons_of_mem _ hx), hch.tail⟩
      · rename_i hident
        rw [List.chain'_cons'] at hch
        refine ⟨?_, ?_⟩
        · intro x hx
          rcases List.mem_cons.mp hx with hx | hx
          · subst hx; exact Bool.not_eq_true _ ▸ (by simpa using hident)
          · exact hni x (List.mem_cons_of_mem _ hx)
        · rw [List.chain'_cons']
          refine ⟨?_, hch.2⟩
          intro b hb
          rw [addBits_axis]
          exact hch.1 b hb
    · rw [if_neg hax] at h
      simp only [CubeState.push] at h
      split at h
      · cases h
        refine ⟨?_, ?_⟩
        · intro x hx
          rcases List.mem_cons.mp hx with hx | hx
          · subst hx; exact hm
          · exact hni x hx
        · rw [List.chain'_cons']
          refine ⟨?_, hch⟩
          intro b hb
          simp only [List.head?_cons, Option.mem_def, Option.some.injEq] at hb
          subst hb
          exact fun hh => hax hh.symm
      · cases h

theorem buildState_inv_aux :
    ∀ (ms : List Move) (s0 : CubeState), entriesInv s0 →
      (∀ x ∈ ms, x.is_ident = false) → ∀ s, ms.foldlM CubeState.apply_move s0 = some s →
        entriesInv s := by
  intro ms
  induction ms with
  | nil => intro s0 h0 _ s hs; simp [List.foldlM] at hs; subst hs; exact h0
  | cons m ms ih =>
    intro s0 h0 hall s hs
    simp only [List.foldlM_cons] at hs
    cases happ : s0.apply_move m with
    | none =>
      rw [happ] at hs
      exact Option.noConfusion (show (Option.none : Option CubeState) = some s from hs)
    | some s1 =>
      rw [happ] at hs
      exact ih s1 (entriesInv_apply s0 m (hall m (by simp)) h0 s1 happ)
        (fun x hx => hall x (List.mem_cons_of_mem _ hx)) s
        (show List.foldlM CubeState.apply_move s1 ms = some s from hs)

/-- C8 (amended): every proxy state reachable from the empty state by
applying non-identity moves stores only non-identity entries and no two
adjacent entries share an axis. -/
theorem c8_invariant (ms : List Move) (hms : ∀ x ∈ ms, x.is_ident = false)
    (s : CubeState) (hb : buildState ms = some s) :
    (∀ x ∈ s, x.is_ident = false) ∧ s.Chain' (fun m1 m2 => m1.axis ≠ m2.axis) :=
  buildState_inv_aux ms [] entriesInv_nil hms s hb

theorem c8_witness :
    (∀ x ∈ ([mU, mR] : CubeState), x.is_ident = false) ∧
    ([mU, mR] : CubeState).Chain' (fun m1 m2 => m1.axis ≠ m2.axis) :=
  c8_invariant [mR, mU] (by decide) [mU, mR] (by decide)

/-- C8 fails as stated: the claim quantifies over arbitrary `apply_move`
calls, but applying the identity move to the empty state stores the identity
move, violating the claimed "no stored entry is the identity move". -/
theorem c8_counterexample :
    CubeState.apply_move [] mI = some [mI] ∧ mI.is_ident = true := by
  exact ⟨by decide, by decide⟩

/-- C7 (amended): on a state reachable from empty by non-identity moves and
holding at most 30 entries, applying any move and then its algebraic inverse
restores the prior state. -/
theorem c7_inverse_cancel (ms : List Move) (hms : ∀ x ∈ ms, x.is_ident = false)
    (s : CubeState) (hb : buildState ms = some s) (hlen : s.length ≤ 30) (m : Move) :
    (s.apply_move m).bind (fun t => t.apply_move m.inv) = some s := by
  have hinv : entriesInv s := buildState_inv_aux ms [] entriesInv_nil hms s hb
  obtain ⟨hni, hch⟩ := hinv
  match s with
  | [] =>
    simp only [CubeState.apply_move, CubeState.push, List.length_nil]
    rw [if_pos (by omega : (0:Nat) < 31)]
    simp only [Option.some_bind]
    rw [if_pos (inv_axis m).symm]
    simp [addBits_inv_ident m]
  | old :: rest =>
    simp only [CubeState.apply_move]
    by_cases hax : old.axis = m.axis
    · rw [if_pos hax]
      by_cases hident : (old.addBits m).is_ident = true
      · rw [if_pos hident]
        simp only [Option.some_bind]
        have hold : old = m.inv := addBits_ident_eq_inv old m hax hident
        match rest with
        | [] =>
          simp only [CubeState.apply_move, CubeState.push, List.length_nil]
          rw [if_pos (by omega : (0:Nat) < 31)]
          rw [hold]
        | e :: rest' =>
          have hne : ¬ e.axis = m.inv.axis := by
            rw [inv_axis, ← hax]
            exact fun hh => (List.chain'_cons.mp hch).1 hh.symm
          simp only [CubeState.apply_move]
          rw [if_neg hne]
          simp only [CubeState.push]
          have hlt : (e :: rest').length < 31 := by
            simp only [List.length_cons] at hlen ⊢; omega
          rw [if_pos hlt, hold]
      · rw [if_neg hident]
        simp only [Option.some_bind]
        have hcax : (old.addBits m).axis = m.inv.axis := by rw [addBits_axis, inv_axis, hax]
        rw [if_pos hcax, addBits_cancel old m]
        rw [if_neg (by simp [hni old (by simp)] : ¬ old.is_ident = true)]
    · rw [if_neg hax]
      simp only [CubeState.push]
      have hlt : (old :: rest).length < 31 := by
        simp only [List.length_cons] at hlen ⊢; omega
      rw [if_pos hlt]
      simp only [Option.some_bind]
      rw [if_pos (inv_axis m).symm]
      simp [addBits_inv_ident m]

theorem c7_witness :
    (CubeState.apply_move [mR] mU).bind (fun t => t.apply_move mU.inv) = some [mR] :=
  c7_inverse_cancel [mR] (by decide) [mR] (by decide) (by decide) mU

/-- C7 fails as stated, in two ways.  First, the state `[identity-X-move]`
is reachable (one `apply_move` from empty), yet applying `R` and then `R'`
to it yields the empty state, not the prior state.  Second, the 31-entry
state `s31` is reachable, and applying a fresh-axis move to it overflows the
fixed buffer (a panic, modelled as `none`), so no state is restored. -/
theorem c7_counterexample :
    CubeState.apply_move [] mI = some [mI] ∧
    (CubeState.apply_move [mI] mR).bind (fun t => t.apply_move mR.inv) = some [] ∧
    ([] : CubeState) ≠ [mI] ∧
    buildState ms31 = some s31 ∧
    CubeState.apply_move s31 mF = none := by
  refine ⟨by decide, by decide, by decide, by decide, by decide⟩

/-! ## Search-side lemmas: state weight, path runs, solution counts -/

theorem lower_bound_cons (m : Move) (s : CubeState) :
    CubeState.lower_bound (m :: s) = (if m.is_double_move then 2 else 1) + s.lower_bound := by
  simp [CubeState.lower_bound]

theorem weight_pos (m : Move) : 1 ≤ if m.is_double_move then 2 else 1 := by split <;> omega

theorem weight_le (m : Move) : (if m.is_double_move then 2 else 1) ≤ 2 := by split <;> omega

theorem lower_bound_apply (s : CubeState) (m : Move) (hm : m.is_double_move = false) :
    s.lower_bound ≤ (s.apply_move_total m).lower_bound + 1 := by
  match s with
  | [] => simp [CubeState.apply_move_total, CubeState.lower_bound]
  | old :: rest =>
    simp only [CubeState.apply_move_total]
    by_cases hax : old.axis = m.axis
    · rw [if_pos hax]
      by_cases hident : (old.addBits m).is_ident = true
      · rw [if_pos hident]
        have hod : old.is_double_move = false := is_double_addBits_ident old m hm hident
        rw [lower_bound_cons]
        simp only [hod, if_false, Bool.false_eq_true]
        omega
      · rw [if_neg hident]
        rw [lower_bound_cons old rest, lower_bound_cons (old.addBits m) rest]
        have h1 := weight_le old
        have h2 := weight_pos (old.addBits m)
        omega
    · rw [if_neg hax]
      rw [lower_bound_cons m (old :: rest)]
      have h1 := weight_pos m
      omega

theorem runPath_shape :
    ∀ (moves : List Move) (gaps : List Reorient) (s : CubeState) (o : Orientation)
      (t : CubeState), runPath s o moves gaps = some t → gaps.length = moves.length - 1 := by
  intro moves
  induction moves with
  | nil =>
    intro gaps s o t h
    cases gaps with
    | nil => simp
    | cons g gs =>
      exact Option.noConfusion (show (Option.none : Option CubeState) = some t from h)
  | cons m rest ih =>
    intro gaps s o t h
    cases rest with
    | nil =>
      cases gaps with
      | nil => simp
      | cons g gs =>
        exact Option.noConfusion (show (Option.none : Option CubeState) = some t from h)
    | cons m1 rest' =>
      cases gaps with
      | nil =>
        exact Option.noConfusion (show (Option.none : Option CubeState) = some t from h)
      | cons g gs =>
        have h' : runPath (s.apply_move_total (o.transform_move m))
            (g.orientation.transform_orientation o) (m1 :: rest') gs = some t := h
        have := ih gs _ _ t h'
        simp only [List.length_cons] at this ⊢
        omega

theorem runPath_lower_bound :
    ∀ (moves : List Move) (gaps : List Reorient) (s : CubeState) (o : Orientation)
      (t : CubeState), (∀ m ∈ moves, m.is_double_move = false) →
        runPath s o moves gaps = some t → s.lower_bound ≤ t.lower_bound + moves.length := by
  intro moves
  induction moves with
  | nil =>
    intro gaps s o t hall h
    cases gaps with
    | nil =>
      have hst : s = t := Option.some.inj h
      subst hst; simp
    | cons g gs =>
      exact Option.noConfusion (show (Option.none : Option CubeState) = some t from h)
  | cons m rest ih =>
    intro gaps s o t hall h
    cases rest with
    | nil =>
      cases gaps with
      | nil =>
        have ht : s.apply_move_total (o.transform_move m) = t := Option.some.inj h
        have hm : (o.transform_move m).is_double_move = false := by
          rw [is_double_transform]; exact hall m (by simp)
        have h1 := lower_bound_apply s (o.transform_move m) hm
        rw [ht] at h1
        simpa using h1
      | cons g gs =>
        exact Option.noConfusion (show (Option.none : Option CubeState) = some t from h)
    | cons m1 rest' =>
      cases gaps with
      | nil =>
        exact Option.noConfusion (show (Option.none : Option CubeState) = some t from h)
      | cons g gs =>
        have h' : runPath (s.apply_move_total (o.transform_move m))
            (g.orientation.transform_orientation o) (m1 :: rest') gs = some t := h
        have hm : (o.transform_move m).is_double_move = false := by
          rw [is_double_transform]; exact hall m (by simp)
        have h1 := lower_bound_apply s (o.transform_move m) hm
        have h2 := ih gs _ _ t (fun x hx => hall x (by simp [hx])) h'
        simp only [List.length_cons] at h2 ⊢
        omega

theorem runPath_all_none :
    ∀ (moves : List Move) (s : CubeState) (o : Orientation), moves ≠ [] →
      runPath s o moves (List.replicate (moves.length - 1) Reorient.none) =
        some (foldMoves o s moves) := by
  intro moves
  induction moves with
  | nil => intro s o h; exact absurd rfl h
  | cons m rest ih =>
    intro s o _
    cases rest with
    | nil => rfl
    | cons m1 rest' =>
      have hlen : (m :: m1 :: rest').length - 1 = ((m1 :: rest').length - 1) + 1 := by
        simp only [List.length_cons]; omega
      rw [hlen, List.replicate_succ]
      rw [show runPath s o (m :: m1 :: rest')
          (Reorient.none :: List.replicate ((m1 :: rest').length - 1) Reorient.none) =
        runPath (s.apply_move_total (o.transform_move m))
          (Reorient.none.orientation.transform_orientation o) (m1 :: rest')
          (List.replicate ((m1 :: rest').length - 1) Reorient.none) from rfl]
      rw [transform_orientation_ident o]
      exact ih _ o (by simp)

theorem nonIdentCount_nil : nonIdentCount [] = 0 := rfl

theorem nonIdentCount_cons (r : Reorient) (rs : List Reorient) :
    nonIdentCount (r :: rs) = (if r = Reorient.none then 0 else 1) + nonIdentCount rs := by
  by_cases h : r = Reorient.none
  · subst h; simp [nonIdentCount, List.filter_cons]
  · simp [nonIdentCount, List.filter_cons, h]
    omega

theorem nonIdentCount_reverse (l : List Reorient) : nonIdentCount l.reverse = nonIdentCount l := by
  simp [nonIdentCount, List.filter_reverse]

theorem nonIdentCount_replicate (n : Nat) :
    nonIdentCount (List.replicate n Reorient.none) = 0 := by
  induction n with
  | zero => rfl
  | succ k ih => rw [List.replicate_succ, nonIdentCount_cons, if_pos rfl, ih]

theorem nonIdentCount_eq_zero (l : List Reorient) (h : nonIdentCount l = 0) :
    l = List.replicate l.length Reorient.none := by
  induction l with
  | nil => rfl
  | cons r rs ih =>
    rw [nonIdentCount_cons] at h
    by_cases hr : r = Reorient.none
    · subst hr
      rw [if_pos rfl] at h
      simp only [List.length_cons, List.replicate_succ]
      rw [ih (by omega)]
      simp
    · rw [if_neg hr] at h; omega

/-! ## Unfolding equations of dfs -/

theorem dfs_nil (s : CubeState) (o : Orientation) (b : Nat) :
    dfs s o [] b =
      if (foldMoves o s []).lower_bound ≤ 1 then [List.replicate 0 Reorient.none] else [] := rfl

theorem dfs_one (s : CubeState) (o : Orientation) (m : Move) (b : Nat) :
    dfs s o [m] b =
      if (foldMoves o s [m]).lower_bound ≤ 1 then [List.replicate 0 Reorient.none] else [] := rfl

theorem dfs_cons (s : CubeState) (o : Orientation) (m0 m1 : Move) (rest : List Move) (b : Nat) :
    dfs s o (m0 :: m1 :: rest) b =
      if b = 0 then
        if (foldMoves o s (m0 :: m1 :: rest)).lower_bound ≤ 1 then
          [List.replicate ((m0 :: m1 :: rest).length - 1) Reorient.none]
        else []
      else if (m0 :: m1 :: rest).length + 1 < s.lower_bound then []
      else
        (Reorient.ALL.map fun r =>
          (dfs (s.apply_move_total (o.transform_move m0))
              (r.orientation.transform_orientation o) (m1 :: rest)
              (b - 1 + if r = Reorient.none then 1 else 0)).map
            fun sol => sol ++ [r]).flatten := rfl

/-! ## The dfs characterization: members are exactly the accepted gap
assignments within budget (reversed) -/

theorem acceptsPath_extract (s : CubeState) (o : Orientation) (moves : List Move)
    (gaps : List Reorient) (h : acceptsPath s o moves gaps = true) :
    ∃ t, runPath s o moves gaps = some t ∧ t.lower_bound ≤ 1 := by
  unfold acceptsPath at h
  cases hrp : runPath s o moves gaps with
  | none => rw [hrp] at h; simp at h
  | some t => rw [hrp] at h; exact ⟨t, rfl, by simpa using h⟩

theorem dfs_mem :
    ∀ (moves : List Move), (∀ m ∈ moves, m.is_double_move = false) →
      ∀ (s : CubeState) (o : Orientation) (b : Nat) (sol : List Reorient),
        sol ∈ dfs s o moves b ↔
          ∃ gaps, sol = gaps.reverse ∧ acceptsPath s o moves gaps = true ∧
            nonIdentCount gaps ≤ b := by
  intro moves
  induction moves with
  | nil =>
    intro _ s o b sol
    rw [dfs_nil]
    constructor
    · intro h
      by_cases hlb : (foldMoves o s []).lower_bound ≤ 1
      · rw [if_pos hlb] at h
        simp only [List.replicate_zero, List.mem_singleton] at h
        subst h
        refine ⟨[], by simp, ?_, by simp [nonIdentCount_nil]⟩
        rw [show acceptsPath s o [] [] = decide (s.lower_bound ≤ 1) from rfl,
          decide_eq_true_eq]
        exact hlb
      · rw [if_neg hlb] at h; simp at h
    · rintro ⟨gaps, hrev, hacc, _⟩
      cases gaps with
      | nil =>
        rw [show acceptsPath s o [] [] = decide (s.lower_bound ≤ 1) from rfl,
          decide_eq_true_eq] at hacc
        rw [if_pos (show (foldMoves o s []).lower_bound ≤ 1 from hacc)]
        simp [hrev]
      | cons g gs =>
        rw [show acceptsPath s o [] (g :: gs) = false from rfl] at hacc
        exact absurd hacc (by simp)
  | cons m rest ih =>
    intro hall s o b sol
    cases rest with
    | nil =>
      rw [dfs_one]
      constructor
      · intro h
        by_cases hlb : (foldMoves o s [m]).lower_bound ≤ 1
        · rw [if_pos hlb] at h
          simp only [List.replicate_zero, List.mem_singleton] at h
          subst h
          refine ⟨[], by simp, ?_, by simp [nonIdentCount_nil]⟩
          rw [show acceptsPath s o [m] [] =
            decide ((s.apply_move_total (o.transform_move m)).lower_bound ≤ 1) from rfl,
            decide_eq_true_eq]
          exact hlb
        · rw [if_neg hlb] at h; simp at h
      · rintro ⟨gaps, hrev, hacc, _⟩
        cases gaps with
        | nil =>
          rw [show acceptsPath s o [m] [] =
            decide ((s.apply_move_total (o.transform_move m)).lower_bound ≤ 1) from rfl,
            decide_eq_true_eq] at hacc
          rw [if_pos (show (foldMoves o s [m]).lower_bound ≤ 1 from hacc)]
          simp [hrev]
        | cons g gs =>
          rw [show acceptsPath s o [m] (g :: gs) = false from rfl] at hacc
          exact absurd hacc (by simp)
    | cons m1 rest' =>
      by_cases hb : b = 0
      · subst hb
        rw [dfs_cons, if_pos rfl]
        constructor
        · intro h
          by_cases hlb : (foldMoves o s (m :: m1 :: rest')).lower_bound ≤ 1
          · rw [if_pos hlb] at h
            simp only [List.mem_singleton] at h
            subst h
            refine ⟨List.replicate ((m :: m1 :: rest').length - 1) Reorient.none, ?_, ?_, ?_⟩
            · rw [List.reverse_replicate]
            · unfold acceptsPath
              rw [runPath_all_none _ s o (by simp)]
              simpa using hlb
            · rw [nonIdentCount_replicate]
          · rw [if_neg hlb] at h; simp at h
        · rintro ⟨gaps, hrev, hacc, hcount⟩
          obtain ⟨t, ht, hlb⟩ := acceptsPath_extract s o _ gaps hacc
          have h0 : nonIdentCount gaps = 0 := Nat.le_zero.mp hcount
          have hgaps : gaps = List.replicate gaps.length Reorient.none :=
            nonIdentCount_eq_zero gaps h0
          have hlen : gaps.length = (m :: m1 :: rest').length - 1 :=
            runPath_shape _ gaps s o t ht
          have ht2 : runPath s o (m :: m1 :: rest') gaps =
              some (foldMoves o s (m :: m1 :: rest')) := by
            rw [hgaps, hlen]
            exact runPath_all_none _ s o (by simp)
          have htf : t = foldMoves o s (m :: m1 :: rest') := by
            rw [ht] at ht2; exact Option.some.inj ht2
          subst htf
          rw [if_pos hlb]
          simp only [List.mem_singleton]
          rw [hrev, hgaps, hlen, List.reverse_replicate]
      · rw [dfs_cons, if_neg hb]
        by_cases hprune : (m :: m1 :: rest').length + 1 < s.lower_bound
        · rw [if_pos hprune]
          constructor
          · intro h; simp at h
          · rintro ⟨gaps, hrev, hacc, hcount⟩
            obtain ⟨t, ht, hlb⟩ := acceptsPath_extract s o _ gaps hacc
            have := runPath_lower_bound _ gaps s o t hall ht
            omega
        · rw [if_neg hprune]
          rw [List.mem_flatten]
          constructor
          · rintro ⟨lsub, hlsub, hsol⟩
            rw [List.mem_map] at hlsub
            obtain ⟨r, _, rfl⟩ := hlsub
            rw [List.mem_map] at hsol
            obtain ⟨sol', hsol', rfl⟩ := hsol
            rw [ih (fun x hx => hall x (by simp [hx]))] at hsol'
            obtain ⟨gaps', rfl, hacc', hcount'⟩ := hsol'
            refine ⟨r :: gaps', by simp, ?_, ?_⟩
            · exact hacc'
            · rw [nonIdentCount_cons]
              by_cases hnone : r = Reorient.none
              · rw [if_pos hnone]
                rw [hnone, if_pos rfl] at hcount'
                omega
              · rw [if_neg hnone]
                rw [if_neg hnone] at hcount'
                omega
          · rintro ⟨gaps, hrev, hacc, hcount⟩
            cases gaps with
            | nil =>
              rw [show acceptsPath s o (m :: m1 :: rest') [] = false from rfl] at hacc
              exact absurd hacc (by simp)
            | cons r gs =>
              refine ⟨(dfs (s.apply_move_total (o.transform_move m))
                  (r.orientation.transform_orientation o) (m1 :: rest')
                  (b - 1 + if r = Reorient.none then 1 else 0)).map
                    (fun sol => sol ++ [r]), ?_, ?_⟩
              · rw [List.mem_map]
                exact ⟨r, reorient_mem_ALL r, rfl⟩
              · rw [List.mem_map]
                refine ⟨gs.reverse, ?_, by simp [hrev]⟩
                rw [ih (fun x hx => hall x (by simp [hx]))]
                refine ⟨gs, rfl, ?_, ?_⟩
                · exact hacc
                · rw [nonIdentCount_cons] at hcount
                  by_cases hnone : r = Reorient.none
                  · rw [if_pos hnone] at hcount
                    rw [hnone, if_pos rfl]
                    omega
                  · rw [if_neg hnone] at hcount
                    rw [if_neg hnone]
                    omega

/-! ## C2: terminal nodes -/

/-- C2: at a terminal node (at most one move remaining, or no remaining
reorientation budget), `dfs` folds all remaining moves into the current state
through the current orientation and records the partial solution exactly when
the resulting state is solved or one turn from solved, contributing no
solutions otherwise. -/
theorem c2_terminal (s : CubeState) (o : Orientation) (moves : List Move) (b : Nat)
    (h : moves.length ≤ 1 ∨ b = 0) :
    dfs s o moves b =
      if (foldMoves o s moves).is_solved || (foldMoves o s moves).is_one_from_solved then
        [List.replicate (moves.length - 1) Reorient.none]
      else [] := by
  have hiff : ((foldMoves o s moves).lower_bound ≤ 1) ↔
      ((foldMoves o s moves).is_solved || (foldMoves o s moves).is_one_from_solved) = true := by
    rw [Bool.or_eq_true]
    exact lower_bound_le_one_iff _
  by_cases hc : (foldMoves o s moves).lower_bound ≤ 1
  · rw [if_pos (hiff.mp hc)]
    cases moves with
    | nil => rw [dfs_nil, if_pos hc]; rfl
    | cons m rest =>
      cases rest with
      | nil => rw [dfs_one, if_pos hc]; rfl
      | cons m1 rest' =>
        have hb : b = 0 := by
          rcases h with h | h
          · simp at h
          · exact h
        subst hb
        rw [dfs_cons, if_pos rfl, if_pos hc]
  · rw [if_neg (fun hh => hc (hiff.mpr hh))]
    cases moves with
    | nil => rw [dfs_nil, if_neg hc]
    | cons m rest =>
      cases rest with
      | nil => rw [dfs_one, if_neg hc]
      | cons m1 rest' =>
        have hb : b = 0 := by
          rcases h with h | h
          · simp at h
          · exact h
        subst hb
        rw [dfs_cons, if_pos rfl, if_neg hc]

theorem c2_witness :
    dfs [] Orientation.identity [mU, mUp] 0 =
      if (foldMoves Orientation.identity [] [mU, mUp]).is_solved ||
          (foldMoves Orientation.identity [] [mU, mUp]).is_one_from_solved then
        [List.replicate (([mU, mUp] : List Move).length - 1) Reorient.none]
      else [] :=
  c2_terminal [] Orientation.identity [mU, mUp] 0 (Or.inr rfl)

/-! ## C3: shape of the solution record -/

/-- C3 (amended): the solution record built along one DFS path receives an
entry for every chosen reorientation, including None (terminal nodes fill the
remaining positions with None), so every returned record is a dense vector
with exactly one entry per move after the first; there is no capacity bound
and no capacity invariant to violate. -/
theorem c3_solution_length :
    ∀ (moves : List Move) (s : CubeState) (o : Orientation) (b : Nat) (sol : List Reorient),
      sol ∈ dfs s o moves b → sol.length = moves.length - 1 := by
  intro moves
  induction moves with
  | nil =>
    intro s o b sol h
    rw [dfs_nil] at h
    split at h
    · simp only [List.replicate_zero, List.mem_singleton] at h
      subst h; rfl
    · simp at h
  | cons m rest ih =>
    cases rest with
    | nil =>
      intro s o b sol h
      rw [dfs_one] at h
      split at h
      · simp only [List.replicate_zero, List.mem_singleton] at h
        subst h; rfl
      · simp at h
    | cons m1 rest' =>
      intro s o b sol h
      rw [dfs_cons] at h
      split at h
      · split at h
        · simp only [List.mem_singleton] at h
          subst h
          simp
        · simp at h
      · split at h
        · simp at h
        · rw [List.mem_flatten] at h
          obtain ⟨l, hl, hsol⟩ := h
          rw [List.mem_map] at hl
          obtain ⟨r, _, rfl⟩ := hl
          rw [List.mem_map] at hsol
          obtain ⟨sol', hsol', rfl⟩ := hsol
          have hlen := ih _ _ _ sol' hsol'
          simp only [List.length_append, List.length_cons, List.length_nil] at hlen ⊢
          omega

/-- C3 fails as stated: on the two-move input `R R'` with budget 0 the single
returned solution record is `[None]` — an entry was appended for the chosen
reorientation None (and the record length is the number of gaps, not the
number of non-identity choices). -/
theorem c3_counterexample :
    dfs [] Orientation.identity [mR, mRp] 0 = [[Reorient.none]] ∧
    Reorient.none ∈ ([Reorient.none] : List Reorient) := ⟨by decide, by decide⟩

theorem c3_witness :
    ([Reorient.none] : List Reorient).length = ([mR, mRp] : List Move).length - 1 :=
  c3_solution_length [mR, mRp] [] Orientation.identity 0 [Reorient.none] (by decide)

/-! ## Existence of an accepting assignment (for the exhaustion case of C1) -/

theorem wf_identity : Orientation.identity.wf := by decide

theorem wf_comp :
    ∀ (r : Reorient) (o : Orientation), o.wf → ((r.orientation).transform_orientation o).wf := by
  decide

theorem identity_transform_move : ∀ m : Move, Orientation.identity.transform_move m = m := by
  decide

theorem single_form :
    ∀ m : Move, m.is_double_move = false →
      ∃ (b : Axis) (q : TurnMultiple) (fb : Bool), m = singleEntry b fb q := by decide

theorem choose_reorient :
    ∀ (o : Orientation), o.wf →
      ∀ (b : Axis) (q : TurnMultiple) (fb : Bool) (a : Axis) (f : Bool),
        ∃ r : Reorient,
          landsSingle ((r.orientation).transform_orientation o) (singleEntry b fb q) a f := by
  decide

theorem double_singleEntry : ∀ (a : Axis) (f : Bool) (q : TurnMultiple),
    (singleEntry a f q).is_double_move = false := by decide

theorem singleAxisState_lb (a : Axis) (f : Bool) (s : CubeState)
    (hs : singleAxisState a f s) : s.lower_bound ≤ 1 := by
  cases hs with
  | inl h => subst h; simp [CubeState.lower_bound]
  | inr h =>
    obtain ⟨q, h⟩ := h
    subst h
    rw [lower_bound_cons]
    simp [double_singleEntry, CubeState.lower_bound]

theorem addBits_singleEntry :
    ∀ (a : Axis) (f : Bool) (q : TurnMultiple) (t : Move), t.axis = a →
      (f = true → t.negative = TurnMultiple.none) →
      (f = false → t.positive = TurnMultiple.none) →
      ∃ q', (singleEntry a f q).addBits t = singleEntry a f q' := by decide

theorem singleAxisState_step (a : Axis) (f : Bool) (s : CubeState) (t : Move)
    (hs : singleAxisState a f s) (hax : t.axis = a)
    (hneg : f = true → t.negative = TurnMultiple.none)
    (hpos : f = false → t.positive = TurnMultiple.none) :
    singleAxisState a f (s.apply_move_total t) := by
  cases hs with
  | inl h =>
    subst h
    right
    refine ⟨if f then t.positive else t.negative, ?_⟩
    show [t] = _
    obtain ⟨ax, p, n⟩ := t
    have hax' : ax = a := hax
    subst hax'
    cases f
    · have hp : p = TurnMultiple.none := hpos rfl
      subst hp
      rfl
    · have hn : n = TurnMultiple.none := hneg rfl
      subst hn
      rfl
  | inr h =>
    obtain ⟨q, h⟩ := h
    subst h
    have haxs : (singleEntry a f q).axis = t.axis := by
      rw [hax]
      cases f <;> rfl
    show singleAxisState a f (CubeState.apply_move_total [singleEntry a f q] t)
    simp only [CubeState.apply_move_total]
    rw [if_pos haxs]
    obtain ⟨q', hq'⟩ := addBits_singleEntry a f q t hax hneg hpos
    rw [hq']
    split
    · exact Or.inl rfl
    · exact Or.inr ⟨q', rfl⟩

theorem exists_gaps :
    ∀ (moves : List Move) (s : CubeState) (o : Orientation) (a : Axis) (f : Bool),
      (∀ m ∈ moves, m.is_double_move = false) → o.wf → singleAxisState a f s →
      (∀ m0, moves.head? = some m0 → landsSingle o m0 a f) →
      ∃ gaps, acceptsPath s o moves gaps = true := by
  intro moves
  induction moves with
  | nil =>
    intro s o a f _ _ hs _
    refine ⟨[], ?_⟩
    rw [show acceptsPath s o [] [] = decide (s.lower_bound ≤ 1) from rfl, decide_eq_true_eq]
    exact singleAxisState_lb a f s hs
  | cons m rest ih =>
    intro s o a f hall hwf hs hhead
    obtain ⟨hax, hneg, hpos⟩ := hhead m rfl
    have hs' : singleAxisState a f (s.apply_move_total (o.transform_move m)) :=
      singleAxisState_step a f s (o.transform_move m) hs hax hneg hpos
    cases rest with
    | nil =>
      refine ⟨[], ?_⟩
      rw [show acceptsPath s o [m] [] =
        decide ((s.apply_move_total (o.transform_move m)).lower_bound ≤ 1) from rfl,
        decide_eq_true_eq]
      exact singleAxisState_lb a f _ hs'
    | cons m1 rest' =>
      obtain ⟨b1, q1, fb1, hform⟩ := single_form m1 (hall m1 (by simp))
      obtain ⟨r, hr⟩ := choose_reorient o hwf b1 q1 fb1 a f
      obtain ⟨gaps', hacc'⟩ := ih (s.apply_move_total (o.transform_move m))
        ((r.orientation).transform_orientation o) a f
        (fun x hx => hall x (by simp [hx])) (wf_comp r o hwf) hs'
        (fun m0 hm0 => by
          simp only [List.head?_cons, Option.some.injEq] at hm0
          subst hm0
          rw [hform]
          exact hr)
      exact ⟨r :: gaps', hacc'⟩

theorem exists_accepted (moves : List Move) (hall : ∀ m ∈ moves, m.is_double_move = false)
    (hne : moves ≠ []) :
    ∃ gaps, acceptsPath [] Orientation.identity moves gaps = true := by
  match moves, hne with
  | m0 :: rest, _ =>
    obtain ⟨b, q, fb, hform⟩ := single_form m0 (hall m0 (by simp))
    apply exists_gaps (m0 :: rest) [] Orientation.identity b fb hall wf_identity (Or.inl rfl)
    intro x hx
    simp only [List.head?_cons, Option.some.injEq] at hx
    subst hx
    refine ⟨?_, ?_, ?_⟩ <;> rw [identity_transform_move, hform]
    · cases fb <;> rfl
    · intro hf; subst hf; rfl
    · intro hf; subst hf; rfl

theorem nonIdentCount_le_length (l : List Reorient) : nonIdentCount l ≤ l.length :=
  List.length_filter_le _ l

/-! ## The iterative-deepening loop -/

theorem iddfsLoop_all_fail (cheap : Nat) (moves : List Move) :
    ∀ ks : List Nat, (∀ k ∈ ks, dfs [] Orientation.identity moves k = []) →
      iddfsLoop cheap moves ks = (ks, (0, [])) := by
  intro ks
  induction ks with
  | nil => intro _; rfl
  | cons k ks ih =>
    intro h
    show iddfsLoop cheap moves (k :: ks) = _
    unfold iddfsLoop
    rw [h k (by simp)]
    simp only [List.isEmpty_nil, if_true]
    rw [ih fun j hj => h j (by simp [hj])]

theorem iddfsLoop_success (cheap : Nat) (moves : List Move) :
    ∀ (ks1 : List Nat) (k : Nat) (ks2 : List Nat),
      (∀ j ∈ ks1, dfs [] Orientation.identity moves j = []) →
      dfs [] Orientation.identity moves k ≠ [] →
      iddfsLoop cheap moves (ks1 ++ k :: ks2) =
        (ks1 ++ [k], (k, (dfs [] Orientation.identity moves k).map
          fun sol => ((sol.map (Reorient.cost cheap)).sum, sol))) := by
  intro ks1
  induction ks1 with
  | nil =>
    intro k ks2 _ hk
    show iddfsLoop cheap moves (k :: ks2) = _
    unfold iddfsLoop
    rw [if_neg (by simpa [List.isEmpty_iff] using hk)]
    simp
  | cons j ks1 ih =>
    intro k ks2 hfail hk
    show iddfsLoop cheap moves (j :: (ks1 ++ k :: ks2)) = _
    unfold iddfsLoop
    rw [hfail j (by simp)]
    simp only [List.isEmpty_nil, if_true]
    rw [ih k ks2 (fun x hx => hfail x (by simp [hx])) hk]
    rfl

/-! ## C1: the outer IDDFS loop -/

/-- C1: for a parsed move sequence of length at least 2 and any depth bound,
the outer loop attempts budgets 0, 1, 2, … (never beyond `min n D`), stops at
the first budget whose DFS produces a result, and returns exactly that
level's solutions (paired with their costs), which use the fewest possible
number of reorientations among all accepted gap assignments; when no level
produces a result the attempted budgets are exactly 0 … `min n D`. -/
theorem c1_iddfs (cheap : Nat) (moves : List Move) (D : Nat)
    (hn : 2 ≤ moves.length) (hall : ∀ m ∈ moves, m.is_double_move = false) :
    ((iddfs cheap moves D).2.2 ≠ [] →
      ∃ k, k ≤ min moves.length D ∧
        (iddfs cheap moves D).1 = List.range (k + 1) ∧
        (iddfs cheap moves D).2.1 = k ∧
        dfs [] Orientation.identity moves k ≠ [] ∧
        (∀ j < k, dfs [] Orientation.identity moves j = []) ∧
        (iddfs cheap moves D).2.2 =
          (dfs [] Orientation.identity moves k).map
            (fun sol => ((sol.map (Reorient.cost cheap)).sum, sol)) ∧
        (∀ p ∈ (iddfs cheap moves D).2.2, ∀ gaps,
          acceptsPath [] Orientation.identity moves gaps = true →
            nonIdentCount p.2 ≤ nonIdentCount gaps)) ∧
    ((iddfs cheap moves D).2.2 = [] →
      (iddfs cheap moves D).1 = List.range (min moves.length D + 1)) := by
  have hne : ¬ moves.length ≤ 1 := by omega
  have hiddfs : iddfs cheap moves D =
      iddfsLoop cheap moves (List.range (min moves.length (D + 1))) := by
    unfold iddfs
    rw [if_neg hne]
  set N := min moves.length (D + 1) with hN
  -- a solvable level always exists at n - 1
  have hsolv : dfs [] Orientation.identity moves (moves.length - 1) ≠ [] := by
    obtain ⟨gaps, hacc⟩ := exists_accepted moves hall (by intro h; subst h; simp at hn)
    obtain ⟨t, ht, _⟩ := acceptsPath_extract _ _ _ _ hacc
    have hlen := runPath_shape _ gaps _ _ _ ht
    intro hempty
    have : gaps.reverse ∈ dfs [] Orientation.identity moves (moves.length - 1) := by
      rw [dfs_mem moves hall]
      refine ⟨gaps, rfl, hacc, ?_⟩
      have := nonIdentCount_le_length gaps
      omega
    rw [hempty] at this
    simp at this
  by_cases hex : ∃ k, k < N ∧ dfs [] Orientation.identity moves k ≠ []
  · obtain ⟨kw, hkwN, hkw⟩ := hex
    obtain ⟨k0, hk0P, hk0min⟩ :
        ∃ k, dfs [] Orientation.identity moves k ≠ [] ∧
          ∀ j, j < k → dfs [] Orientation.identity moves j = [] := by
      have hfind : ∃ k, dfs [] Orientation.identity moves k ≠ [] := ⟨kw, hkw⟩
      refine ⟨Nat.find hfind, Nat.find_spec hfind, ?_⟩
      intro j hj
      by_contra hcon
      have hle : Nat.find hfind ≤ j := Nat.find_le hcon
      omega
    have hk0lt : k0 < N := by
      by_contra hcon
      exact hkw (hk0min kw (by omega))
    have hsplit : List.range N = List.range k0 ++ k0 :: ((List.range (N - (k0 + 1))).map (k0 + 1 + ·)) := by
      have h1 : N = (k0 + 1) + (N - (k0 + 1)) := by omega
      rw [h1, List.range_add, List.range_succ]
      simp
    have hloop : iddfsLoop cheap moves (List.range N) =
        (List.range k0 ++ [k0], (k0, (dfs [] Orientation.identity moves k0).map
          fun sol => ((sol.map (Reorient.cost cheap)).sum, sol))) := by
      rw [hsplit]
      exact iddfsLoop_success cheap moves (List.range k0) k0 _
        (fun j hj => hk0min j (List.mem_range.mp hj)) hk0P
    have hsols : (iddfs cheap moves D).2.2 =
        (dfs [] Orientation.identity moves k0).map
          fun sol => ((sol.map (Reorient.cost cheap)).sum, sol) := by
      rw [hiddfs, hloop]
    constructor
    · intro _
      refine ⟨k0, by omega, ?_, ?_, hk0P, fun j hj => hk0min j hj, hsols, ?_⟩
      · rw [hiddfs, hloop, ← List.range_succ]
      · rw [hiddfs, hloop]
      · intro p hp gaps hacc
        rw [hsols, List.mem_map] at hp
        obtain ⟨sol, hsol, rfl⟩ := hp
        rw [dfs_mem moves hall] at hsol
        obtain ⟨gaps0, rfl, hacc0, hcount0⟩ := hsol
        have hge : k0 ≤ nonIdentCount gaps := by
          by_contra hlt
          have hmem : gaps.reverse ∈ dfs [] Orientation.identity moves (nonIdentCount gaps) := by
            rw [dfs_mem moves hall]
            exact ⟨gaps, rfl, hacc, le_refl _⟩
          rw [hk0min (nonIdentCount gaps) (by omega)] at hmem
          simp at hmem
        calc nonIdentCount gaps0.reverse = nonIdentCount gaps0 := nonIdentCount_reverse _
          _ ≤ k0 := hcount0
          _ ≤ nonIdentCount gaps := hge
    · intro hempty
      rw [hsols] at hempty
      simp only [List.map_eq_nil_iff] at hempty
      exact absurd hempty hk0P
  · push_neg at hex
    have hallfail : ∀ k ∈ List.range N, dfs [] Orientation.identity moves k = [] := by
      intro k hk
      exact hex k (List.mem_range.mp hk)
    have hloop : iddfsLoop cheap moves (List.range N) = (List.range N, (0, [])) :=
      iddfsLoop_all_fail cheap moves _ hallfail
    have hNle : N ≤ moves.length - 1 := by
      by_contra hcon
      have hmem : moves.length - 1 < N := by omega
      exact hsolv (hex _ hmem)
    have hND : N = min moves.length D + 1 := by omega
    constructor
    · intro hne2
      rw [hiddfs, hloop] at hne2
      simp at hne2
    · intro _
      rw [hiddfs, hloop, hND]

theorem c1_witness :
    (((iddfs 0 [mR, mU] 1).2.2 ≠ [] →
      ∃ k, k ≤ min ([mR, mU] : List Move).length 1 ∧
        (iddfs 0 [mR, mU] 1).1 = List.range (k + 1) ∧
        (iddfs 0 [mR, mU] 1).2.1 = k ∧
        dfs [] Orientation.identity [mR, mU] k ≠ [] ∧
        (∀ j < k, dfs [] Orientation.identity [mR, mU] j = []) ∧
        (iddfs 0 [mR, mU] 1).2.2 =
          (dfs [] Orientation.identity [mR, mU] k).map
            (fun sol => ((sol.map (Reorient.cost 0)).sum, sol)) ∧
        (∀ p ∈ (iddfs 0 [mR, mU] 1).2.2, ∀ gaps,
          acceptsPath [] Orientation.identity [mR, mU] gaps = true →
            nonIdentCount p.2 ≤ nonIdentCount gaps)) ∧
    ((iddfs 0 [mR, mU] 1).2.2 = [] →
      (iddfs 0 [mR, mU] 1).1 = List.range (min ([mR, mU] : List Move).length 1 + 1))) :=
  c1_iddfs 0 [mR, mU] 1 (by decide) (by decide)

end Rocket
